import Mathlib

/-
  Verification of the cortexa streaming pipeline (src/main.py, src/topic_picker.py,
  src/ui_renderer.py) against its natural-language specification.

  Python strings are embedded as `List Char`; the relevant Python string
  primitives (str.split, str.strip, str.splitlines, re.split of the sentence
  splitter, list slicing) are modelled character by character.  Stateful code
  (the backend loop, the dispatcher hand-off, the display typing animation) is
  modelled by explicit state passing or a labelled step relation.
-/

namespace Cortexa

/-- Whitespace characters: the ASCII part of the class used by the Python regex
class backslash-s and by str.split and str.strip with no arguments. -/
def isWs (c : Char) : Bool :=
  c = ' ' || c = '\t' || c = '\n' || c = '\r' || c = '\x0b' || c = '\x0c'

/-- Sentence-ending punctuation of the splitter regex in src/main.py line 21. -/
def isPunct (c : Char) : Bool :=
  c = '.' || c = '!' || c = '?'

/-- Emit the word accumulated (in reverse) in acc, if any. -/
def flushWord (acc : List Char) : List (List Char) :=
  if acc.isEmpty then [] else [acc.reverse]

/-- Worker for wordsOf; acc holds the current word reversed. -/
def wordsAux : List Char → List Char → List (List Char)
  | [], acc => flushWord acc
  | c :: cs, acc =>
    if isWs c then flushWord acc ++ wordsAux cs []
    else wordsAux cs (c :: acc)

/-- Python str.split() with no arguments: the maximal runs of
non-whitespace characters, in order. -/
def wordsOf (s : List Char) : List (List Char) := wordsAux s []

/-- Python str.lstrip(). -/
def stripLeft (s : List Char) : List Char := s.dropWhile isWs

/-- Python str.rstrip(). -/
def stripRight (s : List Char) : List Char := (s.reverse.dropWhile isWs).reverse

/-- Python str.strip(). -/
def pyStrip (s : List Char) : List Char := stripRight (stripLeft s)

/-- Worker for splitSentences, structurally recursive on fuel;
acc holds the current sentence reversed.  Mirrors re.split of the pattern
"(?<=[.!?])\x5cs+": cut at each maximal whitespace run immediately preceded
by '.', '!' or '?'. -/
def splitSentencesAux : Nat → List Char → List Char → List (List Char)
  | 0, l, acc => [acc.reverse ++ l]
  | fuel + 1, l, acc =>
    match l with
    | [] => [acc.reverse]
    | c :: cs =>
      if isPunct c then
        match cs with
        | [] => [(c :: acc).reverse]
        | c' :: _ =>
          if isWs c' then
            (c :: acc).reverse :: splitSentencesAux fuel (cs.dropWhile isWs) []
          else splitSentencesAux fuel cs (c :: acc)
      else splitSentencesAux fuel cs (c :: acc)

/-- The sentence splitter _sentence_splitter.split of src/main.py line 21. -/
def splitSentences (s : List Char) : List (List Char) :=
  splitSentencesAux s.length s []

/-- Python " ".join(parts). -/
def joinSpace : List (List Char) → List Char
  | [] => []
  | [w] => w
  | w :: x :: rest => w ++ ' ' :: joinSpace (x :: rest)

/-- The word-level slicing loop of chunk_by_sentence (src/main.py lines 53-55):
for i in range(0, len(words), max_words): yield " ".join(words[i:i+max_words]).strip().
Structurally recursive on fuel (len(words) is enough fuel when max_words >= 1). -/
def sliceLoop : Nat → Nat → List (List Char) → List (List Char)
  | 0, _, _ => []
  | fuel + 1, k, ws =>
    if ws.isEmpty then []
    else pyStrip (joinSpace (ws.take k)) :: sliceLoop fuel k (ws.drop k)

/-- yield_current of chunk_by_sentence (src/main.py lines 32-34):
emit " ".join(current_chunk).strip() when current_chunk is non-empty. -/
def flushChunk (cur : List (List Char)) : List (List Char) :=
  if cur.isEmpty then [] else [pyStrip (joinSpace cur)]

/-- The sentence-accumulating loop of chunk_by_sentence (src/main.py lines 36-58).
cur is current_chunk, cnt is current_count. -/
def chunkGo (maxWords : Nat) : List (List Char) → List (List Char) → Nat → List (List Char)
  | [], cur, _ => flushChunk cur
  | s :: rest, cur, cnt =>
    let ws := wordsOf s
    if ws.isEmpty then chunkGo maxWords rest cur cnt
    else if cnt + ws.length ≤ maxWords then
      chunkGo maxWords rest (cur ++ [s]) (cnt + ws.length)
    else
      flushChunk cur ++
        (if ws.length ≤ maxWords then chunkGo maxWords rest [s] ws.length
         else sliceLoop ws.length maxWords ws ++ chunkGo maxWords rest [] 0)

/-- chunk_by_sentence from src/main.py lines 23-58 (the yielded chunks, in order). -/
def chunk_by_sentence (text : List Char) (maxWords : Nat) : List (List Char) :=
  chunkGo maxWords (splitSentences (pyStrip text)) [] 0

/-- Python "\n\n".join(parts), used for the history context block. -/
def joinNN : List (List Char) → List Char
  | [] => []
  | [w] => w
  | w :: x :: rest => w ++ '\n' :: '\n' :: joinNN (x :: rest)

/-- The instruction text of the empty-history branch of build_prompt
(src/main.py line 115). -/
def initialInstr : List Char :=
  ("Begin a stream of consciousness exploring the topic. Let thoughts flow, include associations and mild tangents.").toList

/-- The text preceding the history block in the continuation branch of
build_prompt (src/main.py line 119). -/
def continueHead : List Char :=
  ("Continue the stream of consciousness. Previous few thoughts:\n").toList

/-- The text following the history block in the continuation branch of
build_prompt (src/main.py lines 120-121). -/
def continueTail : List Char :=
  ("\n\nLet your mind drift naturally, staying in character, and explore related ideas.").toList

/-- build_prompt from src/main.py lines 111-123.  The personality is
represented by its prompt_prefix value (default ""). -/
def build_prompt (promptPrefix topic : List Char) (historyChunks : List (List Char)) :
    List Char :=
  let base := pyStrip promptPrefix ++ ("\n\nTopic: ").toList ++ topic ++ ("\n\n").toList
  let full :=
    if historyChunks.isEmpty then base ++ initialInstr
    else base ++ continueHead ++ joinNN historyChunks ++ continueTail
  pyStrip full

/-- maybe_inject_tangent from src/main.py lines 125-128.  The config argument
is represented by its streaming.tangent_prompt value (default "");
`none` stands for the Python None return. -/
def maybe_inject_tangent (chunkCount driftInterval : Nat) (tangentPrompt : List Char) :
    Option (List Char) :=
  if driftInterval != 0 && chunkCount > 0 && chunkCount % driftInterval == 0 then
    some tangentPrompt
  else none

/-- Python l[-k:] slicing on lists.  Note the quirk the code inherits:
for k = 0 this is l[0:], the whole list, not the empty list. -/
def takeLastPy {α : Type} (l : List α) (k : Nat) : List α :=
  if k = 0 then l else l.drop (l.length - k)

/-- The history-window update of backend_loop (src/main.py lines 169-171):
append, then truncate to the last max_history entries when over capacity. -/
def pushHistory {α : Type} (history : List α) (chunk : α) (maxHistory : Nat) : List α :=
  let h := history ++ [chunk]
  if maxHistory < h.length then takeLastPy h maxHistory else h

/-- Line-break characters recognized by Python str.splitlines (each treated as
a single separator; treating "\r\n" as two separators only inserts an extra
empty line, which the sanitizer drops anyway). -/
def isLineBreak (c : Char) : Bool :=
  c = '\n' || c = '\r' || c = '\x0b' || c = '\x0c' ||
  c = '\x1c' || c = '\x1d' || c = '\x1e' || c = '\x85' ||
  c = '\u2028' || c = '\u2029'

/-- Worker for the splitlines step of sanitize_topic. -/
def splitLinesAux : List Char → List Char → List (List Char)
  | [], acc => [acc.reverse]
  | c :: cs, acc =>
    if isLineBreak c then acc.reverse :: splitLinesAux cs []
    else splitLinesAux cs (c :: acc)

/-- Quote characters removed by the re.sub in sanitize_topic. -/
def isQuote (c : Char) : Bool := c = '"' || c = '\''

/-- The re.sub removing a leading and a trailing run of quote characters. -/
def stripQuotes (l : List Char) : List Char :=
  ((l.dropWhile isQuote).reverse.dropWhile isQuote).reverse

/-- Python line[:100].rsplit(" ", 1)[0] as used in sanitize_topic:
drop the part after the last ' ' together with that ' ' when a ' ' exists. -/
def truncAtLastSpace (l : List Char) : List Char :=
  if l.contains ' ' then ((l.reverse.dropWhile (fun c => c != ' ')).reverse).dropLast
  else l

/-- sanitize_topic from src/topic_picker.py lines 13-21 (character for
character the same function as src/main.py lines 77-88): first non-empty
stripped line, surrounding quote runs removed, then length-capped at 100
with a cut back to the last space. -/
def sanitize_topic (raw : List Char) : List Char :=
  let lines := ((splitLinesAux (pyStrip raw) []).map pyStrip).filter (fun l => !l.isEmpty)
  match lines with
  | [] => []
  | line :: _ =>
    let line := pyStrip (stripQuotes line)
    if 100 < line.length then truncAtLastSpace (line.take 100) else line

/-- ASCII lowercase, modelling the re.IGNORECASE matching of the blocklist. -/
def toLowerL (l : List Char) : List Char := l.map Char.toLower

/-- Python regex word character (ASCII part), for the word boundary in the
"do not" and "avoid" patterns. -/
def isWordChar (c : Char) : Bool := c.isAlphanum || c = '_'

/-- Case-insensitive match of the anchored patterns of _bad_topic_patterns:
optional leading whitespace, the phrase, then a word boundary. -/
def matchesLeadingPhrase (phrase cand : List Char) : Bool :=
  let t := toLowerL (cand.dropWhile isWs)
  phrase.isPrefixOf t &&
    (match t.drop phrase.length with
     | [] => true
     | c :: _ => !isWordChar c)

/-- Substring occurrence test: pat occurs contiguously in the second list. -/
def isSubL (pat : List Char) : List Char → Bool
  | [] => pat.isEmpty
  | d :: ds => pat.isPrefixOf (d :: ds) || isSubL pat ds

/-- Case-insensitive substring search (pat is given in lowercase). -/
def containsCI (pat cand : List Char) : Bool := isSubL pat (toLowerL cand)

/-- is_bad_topic from src/topic_picker.py lines 23-29: empty candidates and
candidates matched by any _bad_topic_patterns entry are bad.  The pattern
"instructions?" matches exactly when "instruction" occurs as a substring. -/
def is_bad_topic (candidate : List Char) : Bool :=
  candidate.isEmpty
  || matchesLeadingPhrase (("do not").toList) candidate
  || matchesLeadingPhrase (("avoid").toList) candidate
  || containsCI (("instruction").toList) candidate
  || containsCI (("previous sentence").toList) candidate
  || containsCI (("paragraph").toList) candidate

/-- The fixed fallback topic of both pick_topic_via_llm variants. -/
def defaultTopic : List Char := ("the meaning of nostalgia").toList

/-- The retry loop of pick_topic_via_llm in src/topic_picker.py lines 52-64.
gen models llm_pipeline.generate by attempt number (the prompt is the same
fixed string on every attempt); the first argument is the number of attempts
left. -/
def pickGo (gen : Nat → List Char) : Nat → Nat → List Char
  | 0, _ => defaultTopic
  | n + 1, attempt =>
    let topic := sanitize_topic (gen attempt)
    if is_bad_topic topic then pickGo gen n (attempt + 1) else topic

/-- pick_topic_via_llm from src/topic_picker.py lines 31-64. -/
def pick_topic_via_llm (gen : Nat → List Char) (retries : Nat) : List Char :=
  pickGo gen retries 1

/-- pick_topic_via_llm from src/main.py lines 61-75 (the variant called by
main): one generate call, fallback only when the sanitized topic is empty;
no blocklist check and no retry. -/
def pick_topic_via_llm_main (raw : List Char) : List Char :=
  let topic := sanitize_topic raw
  if topic.isEmpty then defaultTopic else topic

/-! The generation loop of backend_loop (src/main.py lines 145-174).

llm.generate is an external black box, modelled as an oracle from the
iteration number to the returned text (the built prompt is routed to the
oracle and does not constrain its answer).  stop_event is set by an external
controller; its value is modelled as a function of an abstract clock that
ticks once when an iteration's generate call runs and once per dispatched
fragment, so the flag can change between any two actions of the loop.  The
loop reads the flag only at the top-of-iteration check, exactly as the code
does. -/

/-- The configuration knobs backend_loop reads (src/main.py lines 134-137). -/
structure LoopConfig where
  maxWords : Nat
  driftInterval : Nat
  maxHistory : Nat
deriving DecidableEq

/-- Outcome of a backend_loop run. -/
structure LoopResult where
  /-- The dispatched fragments in order, each with the clock at its dispatch;
  the sequence number of a fragment is its position + 1 (chunk_counter). -/
  dispatched : List (Nat × List Char)
  /-- Final value of the iteration variable. -/
  iterations : Nat
  /-- Final value of chunk_counter. -/
  chunkCounter : Nat
  /-- Final history window. -/
  history : List (List Char)
  /-- Clock at loop exit. -/
  finalClock : Nat
  /-- True when the loop exited because stop_event.is_set() was observed,
  false when the iteration cap was reached. -/
  stoppedBySignal : Bool
deriving DecidableEq

/-- Running state of the inner dispatch loop. -/
structure DispatchState where
  chunkCounter : Nat
  history : List (List Char)
  clock : Nat
  dispatched : List (Nat × List Char)
deriving DecidableEq

/-- The inner dispatch loop of backend_loop (src/main.py lines 162-174):
for each chunk, increment chunk_counter, emit the chunk, update the history
window, wait for the acknowledgment.  No stop check happens here. -/
def dispatchAll (maxHistory : Nat) : List (List Char) → DispatchState → DispatchState
  | [], st => st
  | chunk :: rest, st =>
    dispatchAll maxHistory rest
      { chunkCounter := st.chunkCounter + 1,
        history := pushHistory st.history chunk maxHistory,
        clock := st.clock + 1,
        dispatched := st.dispatched ++ [(st.clock, chunk)] }

/-- The while loop of backend_loop; fuel is 8 - iteration, mirroring the
literal cap in `while not stop_event.is_set() and iteration < 8`. -/
def backendGo (cfg : LoopConfig) (outputs : Nat → List Char) (stopAt : Nat → Bool) :
    Nat → Nat → Nat → Nat → List (List Char) → List (Nat × List Char) → LoopResult
  | 0, iter, clock, cnt, hist, acc =>
    { dispatched := acc, iterations := iter, chunkCounter := cnt, history := hist,
      finalClock := clock, stoppedBySignal := false }
  | fuel + 1, iter, clock, cnt, hist, acc =>
    if stopAt clock then
      { dispatched := acc, iterations := iter, chunkCounter := cnt, history := hist,
        finalClock := clock, stoppedBySignal := true }
    else
      let raw := outputs (iter + 1)
      if raw.isEmpty then
        backendGo cfg outputs stopAt fuel (iter + 1) (clock + 1) cnt hist acc
      else
        let st := dispatchAll cfg.maxHistory (chunk_by_sentence raw cfg.maxWords)
          { chunkCounter := cnt, history := hist, clock := clock + 1, dispatched := acc }
        backendGo cfg outputs stopAt fuel (iter + 1) st.clock st.chunkCounter
          st.history st.dispatched

/-- backend_loop from src/main.py lines 130-176, starting from iteration 0,
empty history and chunk_counter 0. -/
def backend_loop (cfg : LoopConfig) (outputs : Nat → List Char) (stopAt : Nat → Bool) :
    LoopResult :=
  backendGo cfg outputs stopAt 8 0 0 0 [] []

/-! The producer-consumer hand-off (src/main.py lines 17-19, 162-174, 226-234).

The producer thread runs the dispatch loop: for fragment k it emits
chunk_signal (a queued Qt signal, delivered FIFO to the GUI thread) carrying a
fresh threading.Event, then blocks in done.wait().  The consumer (GUI thread)
dequeues one signal at a time, runs the typing display, and its on_complete
callback sets the event exactly once.  The interleaving of the two threads is
modelled as a labelled transition system. -/

/-- Producer thread control state: about to emit fragment k, blocked in
done.wait() for fragment k, or past the last fragment. -/
inductive ProdState where
  | emitting (k : Nat)
  | waiting (k : Nat)
  | finished
deriving DecidableEq

/-- Global state of the producer-consumer pair for a run of n fragments. -/
structure DispatchSys where
  /-- Total number of fragments the producer will emit. -/
  numFrags : Nat
  /-- Producer control state. -/
  prod : ProdState
  /-- Pending queued signal deliveries (fragment indices), FIFO. -/
  queue : List Nat
  /-- Per-fragment threading.Event state. -/
  evSet : Nat → Bool
  /-- Fragment currently being typed by the consumer, if any. -/
  typing : Option Nat
  /-- Fragment indices in the order the consumer received them. -/
  consumed : List Nat
  /-- Fragment indices in the order their events were set (acknowledged). -/
  acked : List Nat

/-- One atomic action of either thread. -/
inductive DStep : DispatchSys → DispatchSys → Prop where
  /-- Producer emits fragment k and blocks on its event. -/
  | emit (s : DispatchSys) (k : Nat) :
      s.prod = ProdState.emitting k → k < s.numFrags →
      DStep s { s with prod := ProdState.waiting k, queue := s.queue ++ [k] }
  /-- Producer's done.wait() returns, which requires the event to be set. -/
  | wake (s : DispatchSys) (k : Nat) :
      s.prod = ProdState.waiting k → s.evSet k = true →
      DStep s { s with prod := if k + 1 < s.numFrags then ProdState.emitting (k + 1)
                               else ProdState.finished }
  /-- Consumer dequeues the next delivered signal and starts displaying it. -/
  | take (s : DispatchSys) (k : Nat) (rest : List Nat) :
      s.queue = k :: rest → s.typing = none →
      DStep s { s with queue := rest, typing := some k,
                       consumed := s.consumed ++ [k] }
  /-- Consumer finishes typing and on_complete sets the fragment's event. -/
  | ack (s : DispatchSys) (k : Nat) :
      s.typing = some k →
      DStep s { s with typing := none, acked := s.acked ++ [k],
                       evSet := fun m => if m = k then true else s.evSet m }

/-- Initial state: producer about to emit fragment 0 (or already done when
n = 0), empty queue, all events unset. -/
def dispatchInit (n : Nat) : DispatchSys :=
  { numFrags := n,
    prod := if 0 < n then ProdState.emitting 0 else ProdState.finished,
    queue := [], evSet := fun _ => false, typing := none,
    consumed := [], acked := [] }

/-- States reachable from the initial state by interleaved steps. -/
inductive DReach (n : Nat) : DispatchSys → Prop where
  | refl : DReach n (dispatchInit n)
  | step {s t : DispatchSys} : DReach n s → DStep s t → DReach n t

/-! The display state machine (src/ui_renderer.py lines 236-270 and 104-131). -/

/-- Observable events of display_chunk_with_typing, in order: the
fade-out-and-clear transition, one reveal per word of the typing animation,
and the on_complete callback. -/
inductive DispEvent where
  | fadeClear
  | reveal (w : List Char)
  | completed
deriving DecidableEq

/-- State of the speech balloon: its current text and the _fading flag of
SpeechBalloonWidget. -/
structure BalloonState where
  text : List Char
  fading : Bool
deriving DecidableEq

/-- The candidate_full computation of display_chunk_with_typing
(src/ui_renderer.py lines 237-238). -/
def dispCandidate (st : BalloonState) (chunk : List Char) : List Char :=
  let existing := pyStrip st.text
  if existing.isEmpty then pyStrip chunk
  else pyStrip (existing ++ ' ' :: chunk)

/-- The recursive step() closure of proceed_with_chunk (src/ui_renderer.py
lines 246-260): reveal one word per tick, then set the full joined text and
invoke on_complete.  Returns the emitted events and the final balloon text. -/
def typeRun : List (List Char) → List (List Char) → List DispEvent × List Char
  | [], displayed => ([DispEvent.completed], joinSpace displayed)
  | w :: rest, displayed =>
    let r := typeRun rest (displayed ++ [w])
    (DispEvent.reveal w :: r.1, r.2)

/-- display_chunk_with_typing from src/ui_renderer.py lines 236-270.
wouldOverflow models SpeechBalloonWidget.would_overflow (a QFontMetrics
measurement against the balloon rectangle, opaque to this model).  On
overflow, fade_out_and_clear runs and types only the new chunk afterwards —
unless a fade is already in progress (_fading), in which case
fade_out_and_clear returns immediately and nothing further happens. -/
def display_chunk_with_typing (st : BalloonState) (chunk : List Char)
    (wouldOverflow : List Char → Bool) : List DispEvent × BalloonState :=
  if wouldOverflow (dispCandidate st chunk) then
    if st.fading then ([], st)
    else
      let r := typeRun (wordsOf chunk) []
      (DispEvent.fadeClear :: r.1, { text := r.2, fading := false })
  else
    let r := typeRun (wordsOf (dispCandidate st chunk)) []
    (r.1, { text := r.2, fading := st.fading })

/-- A concrete state of the dispatcher system after one full
emit-take-ack-wake cycle of a single fragment, used to exercise the
ordering theorem. -/
def dispatchDemo : DispatchSys :=
  { numFrags := 1, prod := ProdState.finished, queue := [],
    evSet := fun m => if m = 0 then true else false, typing := none,
    consumed := [0], acked := [0] }

/-- Event state where exactly the fragments below k are set. -/
def evUpto (k : Nat) : Nat → Bool := fun m => decide (m < k)

/-- Phase invariant of the dispatcher system: every reachable state is in one
of the five control phases of the one-fragment-in-flight cycle (about to emit
k, emitted k and queued, k being typed, k acknowledged but producer not yet
woken, all fragments done). -/
def DInv (n : Nat) (s : DispatchSys) : Prop :=
  s.numFrags = n ∧
  ((∃ k, k < n ∧ s.prod = ProdState.emitting k ∧ s.queue = [] ∧ s.typing = none ∧
      s.consumed = List.range k ∧ s.acked = List.range k ∧ s.evSet = evUpto k) ∨
   (∃ k, k < n ∧ s.prod = ProdState.waiting k ∧ s.queue = [k] ∧ s.typing = none ∧
      s.consumed = List.range k ∧ s.acked = List.range k ∧ s.evSet = evUpto k) ∨
   (∃ k, k < n ∧ s.prod = ProdState.waiting k ∧ s.queue = [] ∧ s.typing = some k ∧
      s.consumed = List.range (k + 1) ∧ s.acked = List.range k ∧ s.evSet = evUpto k) ∨
   (∃ k, k < n ∧ s.prod = ProdState.waiting k ∧ s.queue = [] ∧ s.typing = none ∧
      s.consumed = List.range (k + 1) ∧ s.acked = List.range (k + 1) ∧
      s.evSet = evUpto (k + 1)) ∨
   (s.prod = ProdState.finished ∧ s.queue = [] ∧ s.typing = none ∧
      s.consumed = List.range n ∧ s.acked = List.range n ∧ s.evSet = evUpto n))

/-! Lemmas about words, stripping, the sentence splitter and the chunker. -/

theorem wordsAux_sep {w : Char} (hw : isWs w = true) (l₁ l₂ : List Char) :
    ∀ acc, wordsAux (l₁ ++ w :: l₂) acc = wordsAux l₁ acc ++ wordsAux l₂ [] := by
  induction l₁ with
  | nil => intro acc; simp [wordsAux, hw]
  | cons c l₁ ih =>
    intro acc
    by_cases hc : isWs c = true
    · simp [wordsAux, hc, ih]
    · simp [wordsAux, hc, ih]

theorem wordsOf_sep {w : Char} (hw : isWs w = true) (l₁ l₂ : List Char) :
    wordsOf (l₁ ++ w :: l₂) = wordsOf l₁ ++ wordsOf l₂ :=
  wordsAux_sep hw l₁ l₂ []

theorem wordsAux_all_ws {l : List Char} (h : ∀ c ∈ l, isWs c = true) :
    ∀ acc, wordsAux l acc = flushWord acc := by
  induction l with
  | nil => intro acc; rfl
  | cons c cs ih =>
    intro acc
    have hc : isWs c = true := h c (List.mem_cons_self c cs)
    have ih' := ih (fun d hd => h d (List.mem_cons_of_mem c hd))
    simp [wordsAux, hc, ih', flushWord]

theorem wordsOf_all_ws {l : List Char} (h : ∀ c ∈ l, isWs c = true) :
    wordsOf l = [] := by
  simp [wordsOf, wordsAux_all_ws h, flushWord]

theorem wordsOf_ws_left {p : List Char} (h : ∀ c ∈ p, isWs c = true)
    (l : List Char) : wordsOf (p ++ l) = wordsOf l := by
  induction p with
  | nil => rfl
  | cons c cs ih =>
    have hc : isWs c = true := h c (List.mem_cons_self c cs)
    have ih' := ih (fun d hd => h d (List.mem_cons_of_mem c hd))
    simp [wordsOf, wordsAux, hc, flushWord] at ih' ⊢
    exact ih'

theorem wordsOf_ws_suffix {q : List Char} (h : ∀ c ∈ q, isWs c = true)
    (l : List Char) : wordsOf (l ++ q) = wordsOf l := by
  cases q with
  | nil => simp
  | cons w q' =>
    have hw : isWs w = true := h w (List.mem_cons_self w q')
    rw [wordsOf_sep hw, wordsOf_all_ws (fun d hd => h d (List.mem_cons_of_mem w hd)),
      List.append_nil]

theorem wordsOf_stripLeft (l : List Char) : wordsOf (stripLeft l) = wordsOf l := by
  conv_rhs => rw [← List.takeWhile_append_dropWhile isWs l]
  exact (wordsOf_ws_left (fun c hc => List.mem_takeWhile_imp hc) _).symm

theorem wordsOf_stripRight (l : List Char) : wordsOf (stripRight l) = wordsOf l := by
  have hrepr : l = stripRight l ++ (l.reverse.takeWhile isWs).reverse := by
    conv_lhs => rw [← List.reverse_reverse l,
      ← List.takeWhile_append_dropWhile isWs l.reverse]
    rw [List.reverse_append]
    rfl
  conv_rhs => rw [hrepr]
  refine (wordsOf_ws_suffix (fun c hc => ?_) _).symm
  rw [List.mem_reverse] at hc
  exact List.mem_takeWhile_imp hc

theorem wordsOf_pyStrip (l : List Char) : wordsOf (pyStrip l) = wordsOf l := by
  rw [pyStrip, wordsOf_stripRight, wordsOf_stripLeft]

theorem wordsAux_proper (l : List Char) :
    ∀ acc, (∀ c ∈ acc, isWs c = false) →
      ∀ w ∈ wordsAux l acc, w ≠ [] ∧ ∀ c ∈ w, isWs c = false := by
  induction l with
  | nil =>
    intro acc hacc w hw
    by_cases he : acc.isEmpty = true
    · simp [wordsAux, flushWord, he] at hw
    · simp [wordsAux, flushWord, he] at hw
      subst hw
      refine ⟨by simpa [List.isEmpty_iff] using he, fun c hc => hacc c ?_⟩
      simpa using hc
  | cons c cs ih =>
    intro acc hacc w hw
    by_cases hc : isWs c = true
    · simp only [wordsAux, hc, if_pos, List.mem_append] at hw
      rcases hw with hw | hw
      · by_cases he : acc.isEmpty = true
        · simp [flushWord, he] at hw
        · simp [flushWord, he] at hw
          subst hw
          refine ⟨by simpa [List.isEmpty_iff] using he, fun d hd => hacc d ?_⟩
          simpa using hd
      · exact ih [] (by simp) w hw
    · simp only [wordsAux, hc] at hw
      refine ih (c :: acc) ?_ w hw
      intro d hd
      rcases List.mem_cons.mp hd with h | h
      · subst h; simpa using hc
      · exact hacc d h

theorem wordsOf_proper (l : List Char) :
    ∀ w ∈ wordsOf l, w ≠ [] ∧ ∀ c ∈ w, isWs c = false :=
  wordsAux_proper l [] (by simp)

theorem wordsAux_no_ws {l : List Char} (h : ∀ c ∈ l, isWs c = false) :
    ∀ acc, wordsAux l acc = flushWord (l.reverse ++ acc) := by
  induction l with
  | nil => intro acc; rfl
  | cons c cs ih =>
    intro acc
    have hc : isWs c = false := h c (List.mem_cons_self c cs)
    have ih' := ih (fun d hd => h d (List.mem_cons_of_mem c hd)) (c :: acc)
    simp only [wordsAux, hc, Bool.false_eq_true, if_false, ih', List.reverse_cons,
      List.append_assoc, List.singleton_append]

theorem wordsOf_single {l : List Char} (hne : l ≠ [])
    (h : ∀ c ∈ l, isWs c = false) : wordsOf l = [l] := by
  rw [wordsOf, wordsAux_no_ws h, List.append_nil, flushWord]
  simp [List.isEmpty_iff, hne]

theorem wordsOf_joinSpace (L : List (List Char)) :
    wordsOf (joinSpace L) = (L.map wordsOf).flatten := by
  induction L with
  | nil => rfl
  | cons x xs ih =>
    cases xs with
    | nil => simp [joinSpace]
    | cons y ys =>
      rw [joinSpace, wordsOf_sep (by rfl), ih]
      simp

theorem join_map_wordsOf_proper {g : List (List Char)}
    (h : ∀ w ∈ g, w ≠ [] ∧ ∀ c ∈ w, isWs c = false) :
    (g.map wordsOf).flatten = g := by
  induction g with
  | nil => rfl
  | cons w ws ih =>
    have hw := h w (List.mem_cons_self w ws)
    rw [List.map_cons, List.flatten_cons, wordsOf_single hw.1 hw.2,
      ih (fun v hv => h v (List.mem_cons_of_mem w hv)), List.singleton_append]

theorem wordsOf_joinSpace_proper {g : List (List Char)}
    (h : ∀ w ∈ g, w ≠ [] ∧ ∀ c ∈ w, isWs c = false) :
    wordsOf (joinSpace g) = g := by
  rw [wordsOf_joinSpace, join_map_wordsOf_proper h]

theorem length_dropWhile_le (p : Char → Bool) (l : List Char) :
    (l.dropWhile p).length ≤ l.length := by
  induction l with
  | nil => simp [List.dropWhile]
  | cons c cs ih =>
    rw [List.dropWhile_cons]
    split
    · exact Nat.le_succ_of_le ih
    · simp

theorem splitSentencesAux_words :
    ∀ (fuel : Nat) (l acc : List Char), l.length ≤ fuel →
      ((splitSentencesAux fuel l acc).map wordsOf).flatten = wordsOf (acc.reverse ++ l) := by
  intro fuel
  induction fuel with
  | zero =>
    intro l acc h
    have : l = [] := List.length_eq_zero.mp (Nat.le_zero.mp h)
    subst this
    simp [splitSentencesAux]
  | succ fuel ih =>
    intro l acc h
    cases l with
    | nil => simp [splitSentencesAux]
    | cons c cs =>
      by_cases hp : isPunct c = true
      · cases cs with
        | nil => simp [splitSentencesAux, hp, List.reverse_cons]
        | cons c' cs' =>
          by_cases hw : isWs c' = true
          · have hlen : ((c' :: cs').dropWhile isWs).length ≤ fuel := by
              rw [List.dropWhile_cons, if_pos hw]
              have h1 : (cs'.dropWhile isWs).length ≤ cs'.length :=
                length_dropWhile_le isWs cs'
              have h2 : cs'.length + 2 ≤ fuel + 1 := by simpa using h
              omega
            have ihs := ih ((c' :: cs').dropWhile isWs) [] hlen
            simp only [splitSentencesAux, hp, hw, if_pos, List.map_cons, List.flatten_cons, ihs,
              List.reverse_nil, List.nil_append]
            rw [List.dropWhile_cons, if_pos hw]
            have hdrop : wordsOf (cs'.dropWhile isWs) = wordsOf cs' :=
              wordsOf_stripLeft cs'
            rw [hdrop]
            have hsep : acc.reverse ++ c :: c' :: cs' =
                (acc.reverse ++ [c]) ++ c' :: cs' := by simp
            rw [hsep, wordsOf_sep hw, List.reverse_cons]
          · have hlen : (c' :: cs').length ≤ fuel := by simpa using h
            have ihs := ih (c' :: cs') (c :: acc) hlen
            have hgo : splitSentencesAux (fuel + 1) (c :: c' :: cs') acc =
                splitSentencesAux fuel (c' :: cs') (c :: acc) := by
              simp only [splitSentencesAux]
              rw [if_pos hp, if_neg hw]
            rw [hgo, ihs, List.reverse_cons, List.append_assoc, List.singleton_append]
      · have hlen : cs.length ≤ fuel := by simpa using h
        have ihs := ih cs (c :: acc) hlen
        have hgo : splitSentencesAux (fuel + 1) (c :: cs) acc =
            splitSentencesAux fuel cs (c :: acc) := by
          simp only [splitSentencesAux]
          rw [if_neg hp]
        rw [hgo, ihs, List.reverse_cons, List.append_assoc, List.singleton_append]

theorem splitSentences_words (s : List Char) :
    ((splitSentences s).map wordsOf).flatten = wordsOf s := by
  simpa using splitSentencesAux_words s.length s [] le_rfl

theorem sliceLoop_spec {k : Nat} (hk : 1 ≤ k) :
    ∀ (fuel : Nat) (ws : List (List Char)), ws.length ≤ fuel →
      (∀ w ∈ ws, w ≠ [] ∧ ∀ c ∈ w, isWs c = false) →
      ((sliceLoop fuel k ws).map wordsOf).flatten = ws ∧
        ∀ f ∈ sliceLoop fuel k ws, (wordsOf f).length ≤ k := by
  intro fuel
  induction fuel with
  | zero =>
    intro ws h _
    have : ws = [] := List.length_eq_zero.mp (Nat.le_zero.mp h)
    subst this
    simp [sliceLoop]
  | succ fuel ih =>
    intro ws h hproper
    by_cases he : ws.isEmpty = true
    · rw [List.isEmpty_iff] at he
      subst he
      simp [sliceLoop]
    · rw [List.isEmpty_iff] at he
      have hne : 0 < ws.length := List.length_pos.mpr he
      have hdroplen : (ws.drop k).length ≤ fuel := by
        rw [List.length_drop]; omega
      have hdropproper : ∀ w ∈ ws.drop k, w ≠ [] ∧ ∀ c ∈ w, isWs c = false :=
        fun w hw => hproper w (List.mem_of_mem_drop hw)
      have htakeproper : ∀ w ∈ ws.take k, w ≠ [] ∧ ∀ c ∈ w, isWs c = false :=
        fun w hw => hproper w (List.mem_of_mem_take hw)
      have hhead : wordsOf (pyStrip (joinSpace (ws.take k))) = ws.take k := by
        rw [wordsOf_pyStrip, wordsOf_joinSpace_proper htakeproper]
      obtain ⟨ihjoin, ihbound⟩ := ih (ws.drop k) hdroplen hdropproper
      have hgo : sliceLoop (fuel + 1) k ws =
          pyStrip (joinSpace (ws.take k)) :: sliceLoop fuel k (ws.drop k) := by
        simp only [sliceLoop]
        rw [if_neg (by simp [List.isEmpty_iff, he])]
      constructor
      · rw [hgo, List.map_cons, List.flatten_cons, hhead, ihjoin, List.take_append_drop]
      · intro f hf
        rw [hgo] at hf
        rcases List.mem_cons.mp hf with hf | hf
        · subst hf
          rw [hhead]
          exact List.length_take_le k ws
        · exact ihbound f hf

theorem flushChunk_join (cur : List (List Char)) :
    ((flushChunk cur).map wordsOf).flatten = (cur.map wordsOf).flatten := by
  by_cases he : cur.isEmpty = true
  · rw [List.isEmpty_iff] at he; subst he; rfl
  · simp only [flushChunk, he, Bool.false_eq_true, if_false, List.map_cons, List.map_nil,
      List.flatten_cons, List.flatten_nil, List.append_nil]
    rw [wordsOf_pyStrip, wordsOf_joinSpace]

theorem flushChunk_mem {cur : List (List Char)} {f : List Char}
    (hf : f ∈ flushChunk cur) : wordsOf f = (cur.map wordsOf).flatten := by
  by_cases he : cur.isEmpty = true
  · simp [flushChunk, he] at hf
  · simp only [flushChunk, he, Bool.false_eq_true, if_false, List.mem_singleton] at hf
    subst hf
    rw [wordsOf_pyStrip, wordsOf_joinSpace]

theorem chunkGo_spec {maxW : Nat} (hm : 1 ≤ maxW) :
    ∀ (sents cur : List (List Char)) (cnt : Nat),
      cnt = ((cur.map wordsOf).flatten).length → cnt ≤ maxW →
      (∀ f ∈ chunkGo maxW sents cur cnt, (wordsOf f).length ≤ maxW) ∧
        ((chunkGo maxW sents cur cnt).map wordsOf).flatten =
          ((cur.map wordsOf).flatten) ++ ((sents.map wordsOf).flatten) := by
  intro sents
  induction sents with
  | nil =>
    intro cur cnt hcnt hle
    constructor
    · intro f hf
      rw [flushChunk_mem hf, ← hcnt]
      exact hle
    · simp [chunkGo, flushChunk_join]
  | cons s rest ih =>
    intro cur cnt hcnt hle
    by_cases h1 : (wordsOf s).isEmpty = true
    · rw [List.isEmpty_iff] at h1
      have := ih cur cnt hcnt hle
      simpa [chunkGo, h1] using this
    · rw [List.isEmpty_iff] at h1
      by_cases h2 : cnt + (wordsOf s).length ≤ maxW
      · have hinv : cnt + (wordsOf s).length = (((cur ++ [s]).map wordsOf).flatten).length := by
          simp [hcnt]
        obtain ⟨ihb, ihj⟩ := ih (cur ++ [s]) (cnt + (wordsOf s).length) hinv h2
        constructor
        · intro f hf
          refine ihb f ?_
          simpa [chunkGo, h1, h2] using hf
        · have hgo : chunkGo maxW (s :: rest) cur cnt =
              chunkGo maxW rest (cur ++ [s]) (cnt + (wordsOf s).length) := by
            simp [chunkGo, h1, h2]
          rw [hgo, ihj]
          simp
      · by_cases h3 : (wordsOf s).length ≤ maxW
        · obtain ⟨ihb, ihj⟩ := ih [s] (wordsOf s).length (by simp) h3
          have hgo : chunkGo maxW (s :: rest) cur cnt =
              flushChunk cur ++ chunkGo maxW rest [s] (wordsOf s).length := by
            simp [chunkGo, h1, h2, h3]
          constructor
          · intro f hf
            rw [hgo, List.mem_append] at hf
            rcases hf with hf | hf
            · rw [flushChunk_mem hf, ← hcnt]; exact hle
            · exact ihb f hf
          · rw [hgo]
            simp only [List.map_append, List.flatten_append, flushChunk_join, ihj]
            simp
        · have hproper := wordsOf_proper s
          obtain ⟨sj, sb⟩ := sliceLoop_spec hm (wordsOf s).length (wordsOf s) le_rfl hproper
          obtain ⟨ihb, ihj⟩ := ih [] 0 (by simp) (by omega)
          have hgo : chunkGo maxW (s :: rest) cur cnt =
              flushChunk cur ++
                (sliceLoop (wordsOf s).length maxW (wordsOf s) ++ chunkGo maxW rest [] 0) := by
            simp [chunkGo, h1, h2, h3]
          constructor
          · intro f hf
            rw [hgo, List.mem_append] at hf
            rcases hf with hf | hf
            · rw [flushChunk_mem hf, ← hcnt]; exact hle
            · rw [List.mem_append] at hf
              rcases hf with hf | hf
              · exact sb f hf
              · exact ihb f hf
          · rw [hgo]
            simp only [List.map_append, List.flatten_append, flushChunk_join, ihj, sj]
            simp

/-! Claim theorems. -/

/-- C1: for every input text and every maxWords ≥ 1, every fragment yielded by
chunk_by_sentence has word count ≤ maxWords (including the fragments produced
by slicing a single over-long sentence into fixed-size word runs), and the
concatenation of the words of all yielded fragments, in order, equals the
concatenation of the words of the input text — no loss, no duplication,
modulo whitespace normalization. -/
theorem chunk_by_sentence_spec (text : List Char) (maxWords : Nat) (h : 1 ≤ maxWords) :
    (∀ f ∈ chunk_by_sentence text maxWords, (wordsOf f).length ≤ maxWords) ∧
      ((chunk_by_sentence text maxWords).map wordsOf).flatten = wordsOf text := by
  obtain ⟨hb, hj⟩ :=
    chunkGo_spec h (splitSentences (pyStrip text)) [] 0 (by simp) (by omega)
  refine ⟨fun f hf => hb f hf, ?_⟩
  show ((chunkGo maxWords (splitSentences (pyStrip text)) [] 0).map wordsOf).flatten =
    wordsOf text
  rw [hj]
  simp only [List.map_nil, List.flatten_nil, List.nil_append]
  rw [splitSentences_words, wordsOf_pyStrip]

/-- Witness for C1 at a concrete input. -/
theorem chunk_by_sentence_spec_witness :
    1 ≤ 5 ∧
      ((∀ f ∈ chunk_by_sentence (("One two three. Four five six seven.").toList) 5,
          (wordsOf f).length ≤ 5) ∧
        ((chunk_by_sentence (("One two three. Four five six seven.").toList) 5).map
            wordsOf).flatten = wordsOf (("One two three. Four five six seven.").toList)) :=
  ⟨by decide, chunk_by_sentence_spec (("One two three. Four five six seven.").toList) 5
    (by decide)⟩

/-- C10 counterexample: the Python expression "A " * 10 + "." denotes the
string "A A A A A A A A A A ." whose words are ten "A" plus a lone ".", i.e.
eleven words; slicing at 5 yields three fragments, not the two the claim
states. -/
theorem chunk_overflow_cex :
    (chunk_by_sentence (("A A A A A A A A A A .").toList) 5).length = 3 ∧
      ¬ (chunk_by_sentence (("A A A A A A A A A A .").toList) 5).length = 2 := by
  decide

/-- C10 (amended): chunk_by_sentence on "A " * 10 + "." with maxWords = 5
yields exactly three fragments (the lone final "." counts as an eleventh
word), each of word count at most 5. -/
theorem chunk_overflow_three :
    chunk_by_sentence (("A A A A A A A A A A .").toList) 5 =
      [("A A A A A").toList, ("A A A A A").toList, (".").toList] ∧
      ∀ f ∈ chunk_by_sentence (("A A A A A A A A A A .").toList) 5,
        (wordsOf f).length ≤ 5 := by
  decide

/-- C7: with driftInterval = 4, maybe_inject_tangent signals a tangent
(returns a prompt rather than the Python None) exactly when the cumulative
fragment count is a positive multiple of 4, and never on count 0. -/
theorem maybe_inject_tangent_iff (chunkCount : Nat) (tangentPrompt : List Char) :
    (maybe_inject_tangent chunkCount 4 tangentPrompt).isSome = true ↔
      0 < chunkCount ∧ chunkCount % 4 = 0 := by
  by_cases h : (0 < chunkCount ∧ chunkCount % 4 = 0)
  · rw [maybe_inject_tangent, if_pos]
    · simpa using h
    · simp only [bne_iff_ne, ne_eq, OfNat.ofNat_ne_zero, not_false_eq_true,
        decide_eq_true_eq, beq_iff_eq, Bool.and_eq_true, decide_eq_true_eq]
      exact ⟨by simp [h.1], by simp [h.2]⟩
  · rw [maybe_inject_tangent, if_neg]
    · simpa using h
    · simp only [bne_iff_ne, ne_eq, OfNat.ofNat_ne_zero, not_false_eq_true,
        decide_eq_true_eq, beq_iff_eq, Bool.and_eq_true, decide_eq_true_eq]
      intro hc
      exact h ⟨hc.1.2, hc.2⟩

/-- Witness for C7 at a concrete count. -/
theorem maybe_inject_tangent_iff_witness :
    (maybe_inject_tangent 8 4 []).isSome = true :=
  (maybe_inject_tangent_iff 8 []).mpr (by decide)

/-- C8 counterexample: with max_history = 0 the Python slice history[-0:] is
history[0:], the whole list, so pushing 3 fragments leaves a window of 3
entries, not the at-most-0 the claim requires for H = 0. -/
theorem history_window_cex :
    (List.foldl (fun h x => pushHistory h x 0) ([] : List Nat) [1, 2, 3]).length = 3 ∧
      ¬ (List.foldl (fun h x => pushHistory h x 0) ([] : List Nat) [1, 2, 3]).length ≤ 0 := by
  decide

/-- Folding the history push keeps exactly the last H entries, in order. -/
theorem pushHistory_foldl {α : Type} {H : Nat} (hH : 1 ≤ H) (xs : List α) :
    List.foldl (fun h x => pushHistory h x H) [] xs = xs.drop (xs.length - H) := by
  induction xs using List.reverseRecOn with
  | nil => simp
  | append_singleton xs x ih =>
    rw [List.foldl_append, List.foldl_cons, List.foldl_nil, ih]
    by_cases hlt : xs.length < H
    · have h0 : xs.length - H = 0 := by omega
      have h1 : (xs ++ [x]).length - H = 0 := by simp; omega
      rw [h0, h1, List.drop_zero, List.drop_zero]
      simp only [pushHistory]
      rw [if_neg (by simp; omega)]
    · push_neg at hlt
      have hdlen : (xs.drop (xs.length - H)).length = H := by
        rw [List.length_drop]; omega
      simp only [pushHistory]
      rw [if_pos (by rw [List.length_append, hdlen]; simp)]
      rw [takeLastPy, if_neg (by omega)]
      have hlen2 : (xs.drop (xs.length - H) ++ [x]).length - H = 1 := by
        rw [List.length_append, hdlen]; simp
      rw [hlen2, List.drop_append_of_le_length (by rw [hdlen]; omega), List.drop_drop]
      have h3 : xs.length - H + 1 = (xs ++ [x]).length - H := by simp; omega
      rw [h3, List.drop_append_of_le_length (by simp; omega)]

/-- C8 (amended to max_history ≥ 1; for max_history = 0 the slicing quirk
history[-0:] keeps everything, see the counterexample): the window always
holds the most recent at-most-H entries in emission order with FIFO
eviction, and pushing H + 3 fragments leaves exactly the last H. -/
theorem history_window_fifo {α : Type} (H : Nat) (hH : 1 ≤ H) (xs : List α) :
    List.foldl (fun h x => pushHistory h x H) [] xs = xs.drop (xs.length - H) ∧
      (List.foldl (fun h x => pushHistory h x H) [] xs).length ≤ H ∧
      (xs.length = H + 3 →
        List.foldl (fun h x => pushHistory h x H) [] xs = xs.drop 3) := by
  refine ⟨pushHistory_foldl hH xs, ?_, ?_⟩
  · rw [pushHistory_foldl hH xs, List.length_drop]
    omega
  · intro hlen
    rw [pushHistory_foldl hH xs, hlen]
    congr 1
    omega

/-- Witness for C8: H = 5, eight pushes keep the last five. -/
theorem history_window_fifo_witness :
    1 ≤ 5 ∧ List.foldl (fun h x => pushHistory h x 5) ([] : List Nat)
        [0, 1, 2, 3, 4, 5, 6, 7] = [3, 4, 5, 6, 7] := by
  refine ⟨by decide, ?_⟩
  have h := (history_window_fifo 5 (by decide) [0, 1, 2, 3, 4, 5, 6, 7]).1
  simpa using h

/-- C9: when the backend returns empty output for an iteration, the loop skips
straight to the next iteration: the iteration count advances but the chunk
counter, the history window and the dispatched-fragment list are unchanged, no
fragment is dispatched, and the loop simply continues with the remaining
iterations — the condition is never fatal. -/
theorem backend_loop_empty_skip (cfg : LoopConfig) (outputs : Nat → List Char)
    (stopAt : Nat → Bool) (fuel iter clock cnt : Nat) (hist : List (List Char))
    (acc : List (Nat × List Char)) (hstop : stopAt clock = false)
    (hempty : outputs (iter + 1) = []) :
    backendGo cfg outputs stopAt (fuel + 1) iter clock cnt hist acc =
      backendGo cfg outputs stopAt fuel (iter + 1) (clock + 1) cnt hist acc := by
  simp [backendGo, hstop, hempty]

/-- Witness for C9: iteration 1 returns empty output and is skipped with all
state except the iteration count intact. -/
theorem backend_loop_empty_skip_witness :
    ((fun i => if i = 1 then ([] : List Char) else ("Hi.").toList) 1 = []) ∧
      backendGo ⟨60, 4, 5⟩ (fun i => if i = 1 then [] else ("Hi.").toList)
          (fun _ => false) 8 0 0 0 [] [] =
        backendGo ⟨60, 4, 5⟩ (fun i => if i = 1 then [] else ("Hi.").toList)
          (fun _ => false) 7 1 1 0 [] [] :=
  ⟨rfl, backend_loop_empty_skip ⟨60, 4, 5⟩ _ _ 7 0 0 0 [] [] rfl rfl⟩

/-- The loop runs at most iter + fuel iterations; it runs them all exactly
when it never observes the stop signal, and when it stops by signal the
signal really was set at the top-of-iteration check where it stopped. -/
theorem backendGo_cap (cfg : LoopConfig) (outputs : Nat → List Char)
    (stopAt : Nat → Bool) :
    ∀ (fuel iter clock cnt : Nat) (hist : List (List Char))
      (acc : List (Nat × List Char)),
      (backendGo cfg outputs stopAt fuel iter clock cnt hist acc).iterations ≤ iter + fuel ∧
        ((backendGo cfg outputs stopAt fuel iter clock cnt hist acc).stoppedBySignal = false →
          (backendGo cfg outputs stopAt fuel iter clock cnt hist acc).iterations =
            iter + fuel) ∧
        ((backendGo cfg outputs stopAt fuel iter clock cnt hist acc).stoppedBySignal = true →
          stopAt (backendGo cfg outputs stopAt fuel iter clock cnt hist acc).finalClock =
            true) := by
  intro fuel
  induction fuel with
  | zero =>
    intro iter clock cnt hist acc
    refine ⟨by simp [backendGo], by simp [backendGo], ?_⟩
    intro hsig
    simp [backendGo] at hsig
  | succ fuel ih =>
    intro iter clock cnt hist acc
    by_cases hstop : stopAt clock = true
    · have hgo : backendGo cfg outputs stopAt (fuel + 1) iter clock cnt hist acc =
          { dispatched := acc, iterations := iter, chunkCounter := cnt, history := hist,
            finalClock := clock, stoppedBySignal := true } := by
        simp [backendGo, hstop]
      rw [hgo]
      exact ⟨Nat.le_add_right iter (fuel + 1), fun hs => absurd hs (by simp),
        fun _ => hstop⟩
    · rw [Bool.not_eq_true] at hstop
      by_cases hempty : (outputs (iter + 1)).isEmpty = true
      · have hgo : backendGo cfg outputs stopAt (fuel + 1) iter clock cnt hist acc =
            backendGo cfg outputs stopAt fuel (iter + 1) (clock + 1) cnt hist acc := by
          simp [backendGo, hstop, hempty]
        rw [hgo]
        obtain ⟨h1, h2, h3⟩ := ih (iter + 1) (clock + 1) cnt hist acc
        exact ⟨by omega, fun hs => by rw [h2 hs]; omega, h3⟩
      · have hgo : backendGo cfg outputs stopAt (fuel + 1) iter clock cnt hist acc =
            backendGo cfg outputs stopAt fuel (iter + 1)
              (dispatchAll cfg.maxHistory
                (chunk_by_sentence (outputs (iter + 1)) cfg.maxWords)
                ⟨cnt, hist, clock + 1, acc⟩).clock
              (dispatchAll cfg.maxHistory
                (chunk_by_sentence (outputs (iter + 1)) cfg.maxWords)
                ⟨cnt, hist, clock + 1, acc⟩).chunkCounter
              (dispatchAll cfg.maxHistory
                (chunk_by_sentence (outputs (iter + 1)) cfg.maxWords)
                ⟨cnt, hist, clock + 1, acc⟩).history
              (dispatchAll cfg.maxHistory
                (chunk_by_sentence (outputs (iter + 1)) cfg.maxWords)
                ⟨cnt, hist, clock + 1, acc⟩).dispatched := by
          simp [backendGo, hstop, hempty]
        rw [hgo]
        obtain ⟨h1, h2, h3⟩ := ih (iter + 1) _ _ _ _
        exact ⟨by omega, fun hs => by rw [h2 hs]; omega, h3⟩

/-- C4 (amended): the loop reaches its stopped state exactly when the stop
signal is observed at a top-of-iteration check or when the literal hard cap
of 8 iterations is reached; the signal is not checked at fragment boundaries
inside the dispatch loop (see the counterexample).  In particular at most 8
iterations run, regardless of configuration. -/
theorem backend_loop_stop_cap (cfg : LoopConfig) (outputs : Nat → List Char)
    (stopAt : Nat → Bool) :
    (backend_loop cfg outputs stopAt).iterations ≤ 8 ∧
      ((backend_loop cfg outputs stopAt).stoppedBySignal = false →
        (backend_loop cfg outputs stopAt).iterations = 8) ∧
      ((backend_loop cfg outputs stopAt).stoppedBySignal = true →
        stopAt (backend_loop cfg outputs stopAt).finalClock = true) :=
  backendGo_cap cfg outputs stopAt 8 0 0 0 [] []

/-- Witness for C4: with the stop signal never set, the loop runs exactly the
8 hard-capped iterations. -/
theorem backend_loop_stop_cap_witness :
    (backend_loop ⟨60, 4, 5⟩ (fun _ => ("Hi.").toList) (fun _ => false)).iterations = 8 :=
  (backend_loop_stop_cap ⟨60, 4, 5⟩ (fun _ => ("Hi.").toList) (fun _ => false)).2.1
    (by decide)

/-- C4 counterexample: the stop signal is not observed at fragment boundaries.
Iteration 1 chunks into two fragments, dispatched at clocks 1 and 2; the stop
signal is set from clock 2 on — i.e. at the boundary after the first
fragment — yet the second fragment is still dispatched (at clock 2); the loop
only stops at the next top-of-iteration check. -/
theorem backend_loop_fragment_boundary_cex :
    (backend_loop ⟨3, 4, 5⟩ (fun _ => ("One two three four five six.").toList)
        (fun t => decide (2 ≤ t))).dispatched =
      [(1, ("One two three").toList), (2, ("four five six.").toList)] ∧
      ((fun t => decide (2 ≤ t)) 2 = true) ∧
      (backend_loop ⟨3, 4, 5⟩ (fun _ => ("One two three four five six.").toList)
        (fun t => decide (2 ≤ t))).iterations = 1 := by
  decide

/-- The topic-picker retry loop never returns a bad topic. -/
theorem pickGo_not_bad (gen : Nat → List Char) :
    ∀ (n attempt : Nat), is_bad_topic (pickGo gen n attempt) = false := by
  intro n
  induction n with
  | zero =>
    intro attempt
    show is_bad_topic defaultTopic = false
    decide
  | succ n ih =>
    intro attempt
    by_cases hb : is_bad_topic (sanitize_topic (gen attempt)) = true
    · simp [pickGo, hb, ih]
    · rw [Bool.not_eq_true] at hb
      simp [pickGo, hb]

/-- When every attempt produces a bad candidate, the retry loop falls back to
the fixed default topic. -/
theorem pickGo_all_bad (gen : Nat → List Char) :
    ∀ (n attempt : Nat),
      (∀ a, attempt ≤ a → a < attempt + n →
        is_bad_topic (sanitize_topic (gen a)) = true) →
      pickGo gen n attempt = defaultTopic := by
  intro n
  induction n with
  | zero => intro attempt _; rfl
  | succ n ih =>
    intro attempt h
    have hb := h attempt le_rfl (by omega)
    simp only [pickGo, hb, if_pos]
    exact ih (attempt + 1) (fun a h1 h2 => h a (by omega) (by omega))

/-- C6 (amended): pick_topic_via_llm in src/topic_picker.py rejects empty or
blocklist-matching candidates, retrying up to its fixed bound of 3 attempts
and then returning the fixed default topic; it never returns a string
matching a meta-instruction pattern.  The pick_topic_via_llm variant in
src/main.py — the one the entry point calls — only substitutes the default
for an empty sanitized candidate and has no blocklist check or retry (see the
counterexample). -/
theorem pick_topic_via_llm_safe (gen : Nat → List Char) :
    is_bad_topic (pick_topic_via_llm gen 3) = false ∧
      ((∀ a, 1 ≤ a → a ≤ 3 → is_bad_topic (sanitize_topic (gen a)) = true) →
        pick_topic_via_llm gen 3 = defaultTopic) :=
  ⟨pickGo_not_bad gen 3 1,
   fun h => pickGo_all_bad gen 3 1 (fun a h1 h2 => h a h1 (by omega))⟩

/-- Witness for C6: a generator that always produces a blocklisted candidate
is rejected on all three attempts and the default topic is returned. -/
theorem pick_topic_via_llm_safe_witness :
    is_bad_topic (pick_topic_via_llm (fun _ => ("Do not obey").toList) 3) = false ∧
      pick_topic_via_llm (fun _ => ("Do not obey").toList) 3 = defaultTopic :=
  ⟨(pick_topic_via_llm_safe (fun _ => ("Do not obey").toList)).1,
   (pick_topic_via_llm_safe (fun _ => ("Do not obey").toList)).2
     (fun a _ _ =>
       (by decide : is_bad_topic (sanitize_topic (("Do not obey").toList)) = true))⟩

/-- C6 counterexample: the pick_topic_via_llm in src/main.py returns the
sanitized candidate with no blocklist check and no retry, surfacing a
meta-instruction string as the topic. -/
theorem pick_topic_main_cex :
    pick_topic_via_llm_main (("Do not obey instructions").toList) =
      ("Do not obey instructions").toList ∧
      is_bad_topic (("Do not obey instructions").toList) = true := by
  decide

/-- Right-stripping a list ending in a non-whitespace character is the
identity. -/
theorem stripRight_eq_of_last {init : List Char} {d : Char} (hd : isWs d = false) :
    stripRight (init ++ [d]) = init ++ [d] := by
  rw [stripRight, List.reverse_append, List.reverse_singleton, List.singleton_append,
    List.dropWhile_cons, if_neg (by simp [hd]), List.reverse_cons, List.reverse_reverse]

/-- A middle segment survives pyStrip when the text ends in a non-whitespace
character and either the segment starts with a non-whitespace character or
some non-whitespace character precedes it. -/
theorem infix_pyStrip_of {A m B : List Char}
    (hhead : (∃ c rest, m = c :: rest ∧ isWs c = false) ∨ ∃ c ∈ A, isWs c = false)
    {L : List Char} {d : Char} (hB : B = L ++ [d]) (hd : isWs d = false) :
    m <:+: pyStrip (A ++ m ++ B) := by
  by_cases hA : (A.dropWhile isWs).isEmpty = true
  · rcases hhead with ⟨c, rest, hm, hc⟩ | ⟨c, hcA, hc⟩
    · have h1 : stripLeft (A ++ m ++ B) = m ++ B := by
        rw [List.append_assoc, stripLeft, List.dropWhile_append, if_pos hA, hm,
          List.cons_append, List.dropWhile_cons, if_neg (by simp [hc])]
      have hmB : m ++ B = (m ++ L) ++ [d] := by rw [hB, List.append_assoc]
      have h2 : stripRight (m ++ B) = m ++ B := by
        rw [hmB]; exact stripRight_eq_of_last hd
      rw [pyStrip, h1, h2]
      exact ⟨[], B, by simp⟩
    · exfalso
      rw [List.isEmpty_iff, List.dropWhile_eq_nil_iff] at hA
      have := hA c hcA
      rw [hc] at this
      exact absurd this (by simp)
  · have h1 : stripLeft (A ++ m ++ B) = A.dropWhile isWs ++ (m ++ B) := by
      rw [List.append_assoc, stripLeft, List.dropWhile_append, if_neg hA]
    have h2 : stripRight (A.dropWhile isWs ++ (m ++ B)) =
        A.dropWhile isWs ++ (m ++ B) := by
      have heq : A.dropWhile isWs ++ (m ++ B) =
          (A.dropWhile isWs ++ m ++ L) ++ [d] := by
        rw [hB]; simp [List.append_assoc]
      rw [heq]; exact stripRight_eq_of_last hd
    rw [pyStrip, h1, h2]
    exact ⟨A.dropWhile isWs, B, by simp [List.append_assoc]⟩

/-- Every history entry occurs contiguously in the joined context block. -/
theorem mem_joinNN {e : List Char} :
    ∀ {L : List (List Char)}, e ∈ L → e <:+: joinNN L := by
  intro L
  induction L with
  | nil => intro he; exact absurd he (List.not_mem_nil e)
  | cons x xs ih =>
    intro he
    rcases List.mem_cons.mp he with he | he
    · subst he
      cases xs with
      | nil => exact List.infix_rfl
      | cons y ys => exact ⟨[], '\n' :: '\n' :: joinNN (y :: ys), by simp [joinNN]⟩
    · cases xs with
      | nil => exact absurd he (List.not_mem_nil e)
      | cons y ys =>
        obtain ⟨u, v, huv⟩ := ih he
        exact ⟨x ++ '\n' :: '\n' :: u, v, by simp [joinNN, huv]⟩

/-- C5 (amended): build_prompt renders the persona prefix and an explicit
topic line; when the history is non-empty it renders ALL provided history
entries (the caller bounds the window to max_history = 5, not 2) as previous
thoughts, plus a continuation instruction containing the stay-in-character
phrase; with empty history it is the fixed begin-instruction form, which
contains no stay-in-character reminder (see the counterexample). -/
theorem build_prompt_renders (p t : List Char) (hist : List (List Char)) :
    (("Topic: ").toList ++ t) <:+: build_prompt p t hist ∧
      (hist ≠ [] → ∀ e ∈ hist, e <:+: build_prompt p t hist) ∧
      (hist ≠ [] → ("staying in character").toList <:+: build_prompt p t hist) ∧
      (hist = [] → build_prompt p t hist =
        pyStrip (pyStrip p ++ ("\n\nTopic: ").toList ++ t ++ ("\n\n").toList ++
          initialInstr)) := by
  have hsplitTopic : ("\n\nTopic: ").toList =
      ("\n\n").toList ++ ("Topic: ").toList := by decide
  have hT : ("Topic: ").toList ++ t = 'T' :: (("opic: ").toList ++ t) := by
    have hlit : ("Topic: ").toList = 'T' :: ("opic: ").toList := by decide
    rw [hlit]; rfl
  have hCTend : continueTail =
      (("\n\nLet your mind drift naturally, staying in character, and explore related ideas").toList) ++
        ['.'] := by decide
  have hCmem : 'C' ∈ continueHead := by decide
  cases hist with
  | nil =>
    have hbp : build_prompt p t [] =
        pyStrip (pyStrip p ++ ("\n\nTopic: ").toList ++ t ++ ("\n\n").toList ++
          initialInstr) := by
      simp [build_prompt]
    refine ⟨?_, by simp, by simp, fun _ => hbp⟩
    rw [hbp]
    have hX : pyStrip p ++ ("\n\nTopic: ").toList ++ t ++ ("\n\n").toList ++ initialInstr =
        (pyStrip p ++ ("\n\n").toList) ++ (("Topic: ").toList ++ t) ++
          (("\n\n").toList ++ initialInstr) := by
      rw [hsplitTopic]; simp [List.append_assoc]
    have hBsplit : ("\n\n").toList ++ initialInstr =
        (("\n\nBegin a stream of consciousness exploring the topic. Let thoughts flow, include associations and mild tangents").toList) ++
          ['.'] := by decide
    rw [hX]
    exact infix_pyStrip_of (Or.inl ⟨'T', ("opic: ").toList ++ t, hT, by decide⟩)
      hBsplit (by decide)
  | cons e es =>
    have hbp : build_prompt p t (e :: es) =
        pyStrip (pyStrip p ++ ("\n\nTopic: ").toList ++ t ++ ("\n\n").toList ++
          continueHead ++ joinNN (e :: es) ++ continueTail) := by
      simp [build_prompt]
    refine ⟨?_, fun _ => ?_, fun _ => ?_, by simp⟩
    · rw [hbp]
      have hX : pyStrip p ++ ("\n\nTopic: ").toList ++ t ++ ("\n\n").toList ++
          continueHead ++ joinNN (e :: es) ++ continueTail =
          (pyStrip p ++ ("\n\n").toList) ++ (("Topic: ").toList ++ t) ++
            (("\n\n").toList ++ continueHead ++ joinNN (e :: es) ++ continueTail) := by
        rw [hsplitTopic]; simp [List.append_assoc]
      have hBsplit : ("\n\n").toList ++ continueHead ++ joinNN (e :: es) ++ continueTail =
          (("\n\n").toList ++ continueHead ++ joinNN (e :: es) ++
            (("\n\nLet your mind drift naturally, staying in character, and explore related ideas").toList)) ++
            ['.'] := by
        rw [hCTend]; simp [List.append_assoc]
      rw [hX]
      exact infix_pyStrip_of (Or.inl ⟨'T', ("opic: ").toList ++ t, hT, by decide⟩)
        hBsplit (by decide)
    · intro e' he'
      rw [hbp]
      obtain ⟨u, v, huv⟩ := mem_joinNN he'
      have hX : pyStrip p ++ ("\n\nTopic: ").toList ++ t ++ ("\n\n").toList ++
          continueHead ++ joinNN (e :: es) ++ continueTail =
          (pyStrip p ++ ("\n\nTopic: ").toList ++ t ++ ("\n\n").toList ++
            continueHead ++ u) ++ e' ++ (v ++ continueTail) := by
        rw [← huv]; simp [List.append_assoc]
      have hBsplit : v ++ continueTail =
          (v ++ (("\n\nLet your mind drift naturally, staying in character, and explore related ideas").toList)) ++
            ['.'] := by
        rw [hCTend]; simp [List.append_assoc]
      rw [hX]
      refine infix_pyStrip_of (Or.inr ⟨'C', ?_, by decide⟩) hBsplit (by decide)
      simp [hCmem]
    · rw [hbp]
      have hCT3 : continueTail =
          ("\n\nLet your mind drift naturally, ").toList ++
            ("staying in character").toList ++ (", and explore related ideas.").toList := by
        decide
      have hX : pyStrip p ++ ("\n\nTopic: ").toList ++ t ++ ("\n\n").toList ++
          continueHead ++ joinNN (e :: es) ++ continueTail =
          (pyStrip p ++ ("\n\nTopic: ").toList ++ t ++ ("\n\n").toList ++
            continueHead ++ joinNN (e :: es) ++
            ("\n\nLet your mind drift naturally, ").toList) ++
            ("staying in character").toList ++ (", and explore related ideas.").toList := by
        rw [hCT3]; simp [List.append_assoc]
      have hBsplit : (", and explore related ideas.").toList =
          (", and explore related ideas").toList ++ ['.'] := by decide
      rw [hX]
      refine infix_pyStrip_of (Or.inr ⟨'C', ?_, by decide⟩) hBsplit (by decide)
      simp [hCmem]

/-- Witness for C5 at concrete inputs with one history entry. -/
theorem build_prompt_renders_witness :
    ((("Topic: ").toList ++ ("tides").toList) <:+:
        build_prompt (("P.").toList) (("tides").toList) [("old thought").toList]) ∧
      (("old thought").toList <:+:
        build_prompt (("P.").toList) (("tides").toList) [("old thought").toList]) ∧
      (("staying in character").toList <:+:
        build_prompt (("P.").toList) (("tides").toList) [("old thought").toList]) :=
  ⟨(build_prompt_renders (("P.").toList) (("tides").toList) [("old thought").toList]).1,
   (build_prompt_renders (("P.").toList) (("tides").toList)
       [("old thought").toList]).2.1 (by simp) (("old thought").toList) (by simp),
   (build_prompt_renders (("P.").toList) (("tides").toList)
       [("old thought").toList]).2.2.1 (by simp)⟩

set_option maxRecDepth 4000 in
/-- C5 counterexample: with three history entries the third-from-last entry
"alpha" is rendered into the prompt (the claim allows at most the last 2),
and the initial (empty-history) form contains no stay-in-character reminder
(no occurrence of "character" at all). -/
theorem build_prompt_cex :
    (("alpha").toList <:+:
        build_prompt (("You are a pirate.").toList) (("the sea").toList)
          [("alpha").toList, ("beta").toList, ("gamma").toList]) ∧
      ¬ (("character").toList <:+:
          build_prompt (("You are a pirate.").toList) (("the sea").toList) []) := by
  decide

/-- The typing loop reveals each word in order, then completes once; the final
balloon text is the joined revealed words. -/
theorem typeRun_spec (ws : List (List Char)) :
    ∀ displayed, typeRun ws displayed =
      (ws.map DispEvent.reveal ++ [DispEvent.completed], joinSpace (displayed ++ ws)) := by
  induction ws with
  | nil => intro displayed; simp [typeRun]
  | cons w rest ih =>
    intro displayed
    have h := ih (displayed ++ [w])
    simp [typeRun, h]

/-- C3: for every fragment handed to display_chunk_with_typing with an
on_complete callback while no fade is in progress (which the one-in-flight
dispatch protocol guarantees), the callback fires exactly once, strictly
after every word of the target text has been revealed in order; in the
overflow case the previously displayed text is cleared by the fade
transition and the typing reveal then shows only the new fragment,
discarding the old accumulated text. -/
theorem display_chunk_ack_once (st : BalloonState) (chunk : List Char)
    (ovf : List Char → Bool) (hfade : st.fading = false) :
    ((display_chunk_with_typing st chunk ovf).1.count DispEvent.completed = 1) ∧
      ((display_chunk_with_typing st chunk ovf).1.getLast? = some DispEvent.completed) ∧
      (ovf (dispCandidate st chunk) = true →
        (display_chunk_with_typing st chunk ovf).1 =
          DispEvent.fadeClear ::
            ((wordsOf chunk).map DispEvent.reveal ++ [DispEvent.completed]) ∧
        (display_chunk_with_typing st chunk ovf).2.text = joinSpace (wordsOf chunk)) ∧
      (ovf (dispCandidate st chunk) = false →
        (display_chunk_with_typing st chunk ovf).1 =
          (wordsOf (dispCandidate st chunk)).map DispEvent.reveal ++
            [DispEvent.completed] ∧
        (display_chunk_with_typing st chunk ovf).2.text =
          joinSpace (wordsOf (dispCandidate st chunk))) := by
  have hnotmem : ∀ L : List (List Char),
      DispEvent.completed ∉ L.map DispEvent.reveal := by
    intro L hmem
    obtain ⟨w, _, hw⟩ := List.mem_map.mp hmem
    exact DispEvent.noConfusion hw
  by_cases hovf : ovf (dispCandidate st chunk) = true
  · have hgo : display_chunk_with_typing st chunk ovf =
        (DispEvent.fadeClear ::
          ((wordsOf chunk).map DispEvent.reveal ++ [DispEvent.completed]),
          { text := joinSpace (wordsOf chunk), fading := false }) := by
      rw [display_chunk_with_typing, if_pos hovf, hfade]
      simp [typeRun_spec]
    rw [hgo]
    refine ⟨?_, ?_, fun _ => ⟨rfl, rfl⟩, fun hcon => absurd hovf (by simp [hcon])⟩
    · simp [List.count_cons, List.count_append,
        List.count_eq_zero_of_not_mem (hnotmem (wordsOf chunk))]
    · simp [List.getLast?_cons, List.getLast?_append]
  · rw [Bool.not_eq_true] at hovf
    have hgo : display_chunk_with_typing st chunk ovf =
        ((wordsOf (dispCandidate st chunk)).map DispEvent.reveal ++
          [DispEvent.completed],
          { text := joinSpace (wordsOf (dispCandidate st chunk)),
            fading := st.fading }) := by
      rw [display_chunk_with_typing, if_neg (by simp [hovf])]
      simp [typeRun_spec]
    rw [hgo]
    refine ⟨?_, ?_, fun hcon => absurd hcon (by simp [hovf]), fun _ => ⟨rfl, rfl⟩⟩
    · simp [List.count_append,
        List.count_eq_zero_of_not_mem (hnotmem (wordsOf (dispCandidate st chunk)))]
    · simp [List.getLast?_append]

/-- Witness for C3: a concrete non-overflowing fragment is revealed word by
word and acknowledged exactly once. -/
theorem display_chunk_ack_once_witness :
    ((display_chunk_with_typing ⟨[], false⟩ (("Hi there.").toList)
        (fun _ => false)).1.count DispEvent.completed = 1) ∧
      ((display_chunk_with_typing ⟨[], false⟩ (("Hi there.").toList)
        (fun _ => false)).1.getLast? = some DispEvent.completed) :=
  ⟨(display_chunk_ack_once ⟨[], false⟩ (("Hi there.").toList) (fun _ => false) rfl).1,
   (display_chunk_ack_once ⟨[], false⟩ (("Hi there.").toList) (fun _ => false) rfl).2.1⟩

/-- The initial dispatcher state satisfies the phase invariant. -/
theorem DInv_init (n : Nat) : DInv n (dispatchInit n) := by
  by_cases hn : 0 < n
  · refine ⟨rfl, Or.inl ⟨0, hn, ?_, rfl, rfl, rfl, rfl, ?_⟩⟩
    · simp [dispatchInit, hn]
    · funext m; simp [dispatchInit, evUpto]
  · have hn0 : n = 0 := by omega
    subst hn0
    refine ⟨rfl, Or.inr (Or.inr (Or.inr (Or.inr ⟨?_, rfl, rfl, rfl, rfl, ?_⟩)))⟩
    · simp [dispatchInit]
    · funext m; simp [dispatchInit, evUpto]

/-- Every dispatcher step preserves the phase invariant. -/
theorem DInv_step {n : Nat} {s t : DispatchSys} (hinv : DInv n s) (hstep : DStep s t) :
    DInv n t := by
  obtain ⟨hn, hphase⟩ := hinv
  cases hstep with
  | emit k hpk hkn =>
    rcases hphase with ⟨j, hj, hp, hq, ht, hc, ha, he⟩ | ⟨j, hj, hp, hq, ht, hc, ha, he⟩ |
      ⟨j, hj, hp, hq, ht, hc, ha, he⟩ | ⟨j, hj, hp, hq, ht, hc, ha, he⟩ |
      ⟨hp, hq, ht, hc, ha, he⟩
    · rw [hp] at hpk
      injection hpk with hjk
      subst hjk
      exact ⟨hn, Or.inr (Or.inl ⟨j, hj, rfl, by simp [hq], ht, hc, ha, he⟩)⟩
    · rw [hp] at hpk; exact ProdState.noConfusion hpk
    · rw [hp] at hpk; exact ProdState.noConfusion hpk
    · rw [hp] at hpk; exact ProdState.noConfusion hpk
    · rw [hp] at hpk; exact ProdState.noConfusion hpk
  | wake k hpk hev =>
    rcases hphase with ⟨j, hj, hp, hq, ht, hc, ha, he⟩ | ⟨j, hj, hp, hq, ht, hc, ha, he⟩ |
      ⟨j, hj, hp, hq, ht, hc, ha, he⟩ | ⟨j, hj, hp, hq, ht, hc, ha, he⟩ |
      ⟨hp, hq, ht, hc, ha, he⟩
    · rw [hp] at hpk; exact ProdState.noConfusion hpk
    · rw [hp] at hpk
      injection hpk with hjk
      subst hjk
      rw [he] at hev
      simp [evUpto] at hev
    · rw [hp] at hpk
      injection hpk with hjk
      subst hjk
      rw [he] at hev
      simp [evUpto] at hev
    · rw [hp] at hpk
      injection hpk with hjk
      subst hjk
      by_cases hlt : j + 1 < s.numFrags
      · refine ⟨hn, Or.inl ⟨j + 1, by rw [← hn]; exact hlt, ?_, hq, ht, hc, ha, he⟩⟩
        show (if j + 1 < s.numFrags then ProdState.emitting (j + 1)
          else ProdState.finished) = ProdState.emitting (j + 1)
        rw [if_pos hlt]
      · have hjn : j + 1 = n := by rw [hn] at hlt; omega
        refine ⟨hn, Or.inr (Or.inr (Or.inr (Or.inr ⟨?_, hq, ht, ?_, ?_, ?_⟩)))⟩
        · show (if j + 1 < s.numFrags then ProdState.emitting (j + 1)
            else ProdState.finished) = ProdState.finished
          rw [if_neg hlt]
        · rw [hc, hjn]
        · rw [ha, hjn]
        · rw [he, hjn]
    · rw [hp] at hpk; exact ProdState.noConfusion hpk
  | take k rest hq' ht' =>
    rcases hphase with ⟨j, hj, hp, hq, ht, hc, ha, he⟩ | ⟨j, hj, hp, hq, ht, hc, ha, he⟩ |
      ⟨j, hj, hp, hq, ht, hc, ha, he⟩ | ⟨j, hj, hp, hq, ht, hc, ha, he⟩ |
      ⟨hp, hq, ht, hc, ha, he⟩
    · rw [hq] at hq'; exact List.noConfusion hq'
    · rw [hq] at hq'
      injection hq' with hjk hrest
      subst hjk
      refine ⟨hn, Or.inr (Or.inr (Or.inl ⟨j, hj, hp, hrest.symm, rfl, ?_, ha, he⟩))⟩
      rw [hc, ← List.range_succ]
    · rw [hq] at hq'; exact List.noConfusion hq'
    · rw [hq] at hq'; exact List.noConfusion hq'
    · rw [hq] at hq'; exact List.noConfusion hq'
  | ack k ht' =>
    rcases hphase with ⟨j, hj, hp, hq, ht, hc, ha, he⟩ | ⟨j, hj, hp, hq, ht, hc, ha, he⟩ |
      ⟨j, hj, hp, hq, ht, hc, ha, he⟩ | ⟨j, hj, hp, hq, ht, hc, ha, he⟩ |
      ⟨hp, hq, ht, hc, ha, he⟩
    · rw [ht] at ht'; exact Option.noConfusion ht'
    · rw [ht] at ht'; exact Option.noConfusion ht'
    · rw [ht] at ht'
      injection ht' with hjk
      subst hjk
      refine ⟨hn, Or.inr (Or.inr (Or.inr (Or.inl ⟨j, hj, hp, hq, rfl, hc, ?_, ?_⟩)))⟩
      · rw [ha, ← List.range_succ]
      · funext m
        show (if m = j then true else s.evSet m) = evUpto (j + 1) m
        by_cases hm : m = j
        · subst hm; simp [evUpto]
        · rw [if_neg hm, he]
          simp only [evUpto, decide_eq_decide]
          omega
    · rw [ht] at ht'; exact Option.noConfusion ht'
    · rw [ht] at ht'; exact Option.noConfusion ht'

/-- Every reachable dispatcher state satisfies the phase invariant. -/
theorem DInv_of_reach {n : Nat} {s : DispatchSys} (h : DReach n s) : DInv n s := by
  induction h with
  | refl => exact DInv_init n
  | step _ hstep ih => exact DInv_step ih hstep

/-- C2: in every reachable state of the producer-consumer system, the
consumer has observed fragments in strictly increasing gap-free
sequence-number order (its observation list is 0, 1, 2, ...), acknowledgments
are issued in the same order, at most one fragment is in flight (dispatched
but not yet acknowledged), and whenever the producer is about to dispatch
fragment k — i.e. its k-th dispatch call, 0-based, has returned — all
fragments below k have been acknowledged; when it has finished, all n have
been. -/
theorem dispatcher_ordering (n : Nat) (s : DispatchSys) (hreach : DReach n s) :
    s.consumed = List.range s.consumed.length ∧
      s.acked = List.range s.acked.length ∧
      s.queue.length + s.consumed.length ≤ s.acked.length + 1 ∧
      (∀ k, s.prod = ProdState.emitting k → s.acked = List.range k) ∧
      (s.prod = ProdState.finished → s.acked = List.range n) := by
  obtain ⟨hn, hphase⟩ := DInv_of_reach hreach
  rcases hphase with ⟨j, hj, hp, hq, ht, hc, ha, he⟩ | ⟨j, hj, hp, hq, ht, hc, ha, he⟩ |
    ⟨j, hj, hp, hq, ht, hc, ha, he⟩ | ⟨j, hj, hp, hq, ht, hc, ha, he⟩ |
    ⟨hp, hq, ht, hc, ha, he⟩
  · refine ⟨by rw [hc, List.length_range], by rw [ha, List.length_range], ?_, ?_, ?_⟩
    · rw [hq, hc, ha]; simp [List.length_range]
    · intro k hk
      rw [hp] at hk
      injection hk with hjk
      subst hjk
      exact ha
    · intro hfin; rw [hp] at hfin; exact ProdState.noConfusion hfin
  · refine ⟨by rw [hc, List.length_range], by rw [ha, List.length_range], ?_, ?_, ?_⟩
    · rw [hq, hc, ha]; simp [List.length_range]; omega
    · intro k hk; rw [hp] at hk; exact ProdState.noConfusion hk
    · intro hfin; rw [hp] at hfin; exact ProdState.noConfusion hfin
  · refine ⟨by rw [hc, List.length_range], by rw [ha, List.length_range], ?_, ?_, ?_⟩
    · rw [hq, hc, ha]; simp [List.length_range]
    · intro k hk; rw [hp] at hk; exact ProdState.noConfusion hk
    · intro hfin; rw [hp] at hfin; exact ProdState.noConfusion hfin
  · refine ⟨by rw [hc, List.length_range], by rw [ha, List.length_range], ?_, ?_, ?_⟩
    · rw [hq, hc, ha]; simp [List.length_range]
    · intro k hk; rw [hp] at hk; exact ProdState.noConfusion hk
    · intro hfin; rw [hp] at hfin; exact ProdState.noConfusion hfin
  · refine ⟨by rw [hc, List.length_range], by rw [ha, List.length_range], ?_, ?_, ?_⟩
    · rw [hq, hc, ha]; simp [List.length_range]
    · intro k hk; rw [hp] at hk; exact ProdState.noConfusion hk
    · intro _; exact ha

/-- The demo state is reachable: emit 0, take 0, ack 0, wake. -/
theorem dispatchDemo_reach : DReach 1 dispatchDemo := by
  have h1 : DReach 1
      { numFrags := 1, prod := ProdState.waiting 0, queue := [0],
        evSet := fun _ => false, typing := none, consumed := [], acked := [] } :=
    DReach.step DReach.refl (DStep.emit (dispatchInit 1) 0 (by decide) (by decide))
  have h2 : DReach 1
      { numFrags := 1, prod := ProdState.waiting 0, queue := [],
        evSet := fun _ => false, typing := some 0, consumed := [0], acked := [] } :=
    DReach.step h1 (DStep.take _ 0 [] (by decide) (by decide))
  have h3 : DReach 1
      { numFrags := 1, prod := ProdState.waiting 0, queue := [],
        evSet := fun m => if m = 0 then true else false, typing := none,
        consumed := [0], acked := [0] } :=
    DReach.step h2 (DStep.ack _ 0 (by decide))
  exact DReach.step h3 (DStep.wake _ 0 (by decide) (by decide))

/-- Witness for C2: the ordering properties at the concrete reachable state
after one full dispatch-acknowledge cycle. -/
theorem dispatcher_ordering_witness :
    dispatchDemo.consumed = List.range dispatchDemo.consumed.length ∧
      dispatchDemo.acked = List.range dispatchDemo.acked.length ∧
      dispatchDemo.queue.length + dispatchDemo.consumed.length ≤
        dispatchDemo.acked.length + 1 ∧
      (∀ k, dispatchDemo.prod = ProdState.emitting k →
        dispatchDemo.acked = List.range k) ∧
      (dispatchDemo.prod = ProdState.finished → dispatchDemo.acked = List.range 1) :=
  dispatcher_ordering 1 dispatchDemo dispatchDemo_reach

end Cortexa

